import Mathlib

/-!
Verification development for the cover-letter generator's PDF link/layout core
(`src/main.py`).  The Python code is shallowly embedded:

* The two module-level regexes `EMAIL_PATTERN` and `URL_PATTERN` are embedded
  as terms of a small regex AST `RE` whose matcher `ends` enumerates candidate
  match end positions in exactly the preference order of Python's backtracking
  engine (greedy repetition longest-first, alternation left-first, optional
  present-first).  `matchAt` takes the head candidate, which is the match
  Python's `re` engine reports.  `\w` is modelled over its ASCII fragment
  (`[A-Za-z0-9_]`); all inputs in the concrete claims are ASCII.
* Python's `finditer` is `finditerFrom`: scan left to right, at each position
  try a match; on success yield it and resume at its end (at least one
  position further).  The fuel argument `s.length + 1` is exact: every
  iteration advances the scan position by at least one.
* `_find_links_in_text`, the paragraph/line layout loop of
  `_save_cover_letter_pdf`, `_draw_line_with_links`, and the font-resolution
  path are embedded below, each next to its theorems.  Widths returned by
  reportlab's `stringWidth` and the wrapping performed by reportlab's
  `simpleSplit` are external library facilities and are abstracted as function
  parameters (and, for the wrap, additionally modelled from the spec).
-/

/-- ASCII fragment of Python's `\w` character class. -/
def isWordChar (c : Char) : Bool := c.isAlphanum || c = '_'

/-- Character class of `[\w.+-]` (the email local part). -/
def localCls (c : Char) : Bool := isWordChar c || c = '.' || c = '+' || c = '-'

/-- Character class of `[\w.-]` (email domain / URL host). -/
def hostCls (c : Char) : Bool := isWordChar c || c = '.' || c = '-'

/-- Character class of the URL path suffix: word chars, dot, slash, hyphen. -/
def pathCls (c : Char) : Bool := isWordChar c || c = '.' || c = '/' || c = '-'

/-- Whether position `i` of `s` holds a word character (out-of-range: no). -/
def isWordAt (s : List Char) (i : Nat) : Bool :=
  match s[i]? with
  | some c => isWordChar c
  | none => false

/-- Python's `\b`: position `i` is a word boundary of `s` iff exactly one of
the character before `i` and the character at `i` is a word character. -/
def boundaryAt (s : List Char) : Nat → Bool
  | 0 => isWordAt s 0
  | j + 1 => isWordAt s j != isWordAt s (j + 1)

/-- Whether the character immediately before position `i` is `c`
(the test performed by the negative lookbehind `(?<!c)`). -/
def precededBy (s : List Char) (i : Nat) (c : Char) : Bool :=
  match i with
  | 0 => false
  | j + 1 =>
    match s[j]? with
    | some d => d = c
    | none => false

/-- Regex AST covering exactly the constructs used by `EMAIL_PATTERN` and
`URL_PATTERN` in `src/main.py`.  Repetition is restricted to character
classes (`plusCls` for `[...]+`, `starCls` for `[...]*`), which is all the
two patterns use; this keeps the matcher structurally recursive. -/
inductive RE where
  | eps : RE
  | lit (cs : List Char) : RE
  | plusCls (p : Char → Bool) : RE
  | starCls (p : Char → Bool) : RE
  | seq (a b : RE) : RE
  | alt (a b : RE) : RE
  | wb : RE
  | nlb (c : Char) : RE

/-- Candidate end positions of a match of `r` in `s` starting at `i`, in the
preference order of Python's backtracking engine: greedy repetitions try the
longest run first, alternations try the left branch first, and `seq` explores
the continuation depth-first.  The head of this list is the end position the
Python engine reports for a successful `re.match` at `i`. -/
def ends : RE → List Char → Nat → List Nat
  | .eps, _, i => [i]
  | .lit cs, s, i => if cs.isPrefixOf (s.drop i) then [i + cs.length] else []
  | .plusCls p, s, i =>
      (List.range ((s.drop i).takeWhile p).length).map
        (fun k => i + ((s.drop i).takeWhile p).length - k)
  | .starCls p, s, i =>
      (List.range (((s.drop i).takeWhile p).length + 1)).map
        (fun k => i + ((s.drop i).takeWhile p).length - k)
  | .seq a b, s, i => (ends a s i).flatMap (fun j => ends b s j)
  | .alt a b, s, i => ends a s i ++ ends b s i
  | .wb, s, i => if boundaryAt s i then [i] else []
  | .nlb c, s, i => if precededBy s i c then [] else [i]

/-- The end position of the Python regex match of `r` at position `i` of `s`,
if any (`re.match` semantics at a fixed start position). -/
def matchAt (r : RE) (s : List Char) (i : Nat) : Option Nat := (ends r s i).head?

/-- One finditer scan.  `fuel` bounds the number of scan positions tried;
`finditerFrom` supplies `s.length + 1`, which is exact because every
iteration advances the scan position by at least one. -/
def finditerAux (r : RE) (s : List Char) : Nat → Nat → List (Nat × Nat)
  | 0, _ => []
  | fuel + 1, i =>
      if i ≤ s.length then
        match matchAt r s i with
        | some e => (i, e) :: finditerAux r s fuel (max e (i + 1))
        | none => finditerAux r s fuel (i + 1)
      else []

/-- Python's `pattern.finditer(s)`: the non-overlapping matches of `r` in `s`,
scanning left to right and resuming after each match. -/
def finditerFrom (r : RE) (s : List Char) : List (Nat × Nat) :=
  finditerAux r s (s.length + 1) 0

/-- `EMAIL_PATTERN = re.compile(r'[\w.+-]+@[\w.-]+\.\w+')` from `src/main.py`. -/
def EMAIL_PATTERN : RE :=
  .seq (.plusCls localCls)
    (.seq (.lit ['@'])
      (.seq (.plusCls hostCls)
        (.seq (.lit ['.']) (.plusCls isWordChar))))

/-- `URL_PATTERN` from `src/main.py`: word boundary, negative lookbehind for
`@`, optional `http(s)://` scheme, optional `www.`, a host of `[\w.-]+`, a
dot, one of the labels `com`, `ca`, `org`, a word boundary, and an optional
path: a slash followed by any number of path-class characters. -/
def URL_PATTERN : RE :=
  .seq .wb
    (.seq (.nlb '@')
      (.seq (.alt (.seq (.lit "http".data)
                    (.seq (.alt (.lit "s".data) .eps) (.lit "://".data))) .eps)
        (.seq (.alt (.lit "www.".data) .eps)
          (.seq (.plusCls hostCls)
            (.seq (.lit ['.'])
              (.seq (.alt (.lit "com".data) (.alt (.lit "ca".data) (.lit "org".data)))
                (.seq .wb
                  (.alt (.seq (.lit ['/']) (.starCls pathCls)) .eps))))))))

/-- The tuples `(start, end, display_text, target_uri)` built by
`_find_links_in_text`.  Python's `end` is a keyword in Lean, hence `stop`. -/
structure LinkSpan where
  start : Nat
  stop : Nat
  display_text : String
  target_uri : String
deriving DecidableEq, Repr

/-- The slice `s[a:b]` of Python string indexing, as a character list. -/
def sliceCh (s : List Char) (a b : Nat) : List Char := (s.drop a).take (b - a)

/-- The slice `s[a:b]` of Python string indexing, as a string. -/
def sliceOf (s : List Char) (a b : Nat) : String := (sliceCh s a b).asString

/-- The email pass of `_find_links_in_text`: each `EMAIL_PATTERN` match
becomes a span with `mailto:` target. -/
def emailLinks (s : List Char) : List LinkSpan :=
  (finditerFrom EMAIL_PATTERN s).map (fun p =>
    ⟨p.1, p.2, sliceOf s p.1 p.2, "mailto:" ++ sliceOf s p.1 p.2⟩)

/-- The `email_positions` set of `_find_links_in_text`: every character offset
covered by an email match. -/
def emailPositions (s : List Char) : List Nat :=
  (finditerFrom EMAIL_PATTERN s).flatMap (fun p => List.range' p.1 (p.2 - p.1))

/-- The scheme test `url_text.startswith(('http://', 'https://'))`. -/
def hasScheme (t : String) : Bool :=
  "http://".data.isPrefixOf t.data || "https://".data.isPrefixOf t.data

/-- The URL pass of `_find_links_in_text`: `URL_PATTERN` matches that share no
offset with an email match; a `https://` scheme is prepended to the target
when the matched text carries none. -/
def urlLinks (s : List Char) : List LinkSpan :=
  ((finditerFrom URL_PATTERN s).filter (fun p =>
      !(List.range' p.1 (p.2 - p.1)).any (fun j => (emailPositions s).contains j))).map
    (fun p =>
      ⟨p.1, p.2, sliceOf s p.1 p.2,
        if hasScheme (sliceOf s p.1 p.2) then sliceOf s p.1 p.2
        else "https://" ++ sliceOf s p.1 p.2⟩)

/-- `_find_links_in_text`: email spans, then surviving URL spans, stably
sorted by start offset (`links.sort(key=lambda x: x[0])`). -/
def findLinksInText (text : String) : List LinkSpan :=
  List.insertionSort (fun a b => a.start ≤ b.start)
    (emailLinks text.data ++ urlLinks text.data)

-- Scratch validation (removed before final): concrete detector behavior.

/-- Whether every match of the pattern consumes at least one character.
Both `EMAIL_PATTERN` and `URL_PATTERN` do (each contains a mandatory
`[...]+`), so neither ever produces an empty match. -/
def needsChar : RE → Bool
  | .eps => false
  | .lit cs => !cs.isEmpty
  | .plusCls _ => true
  | .starCls _ => false
  | .seq a b => needsChar a || needsChar b
  | .alt a b => needsChar a && needsChar b
  | .wb => false
  | .nlb _ => false

/-- Two spans overlap iff they share at least one character offset of their
half-open intervals. -/
def spansOverlap (a b : LinkSpan) : Prop :=
  max a.start b.start < min a.stop b.stop

instance : IsTotal LinkSpan (fun a b => a.start ≤ b.start) :=
  ⟨fun a b => Nat.le_total a.start b.start⟩

instance : IsTrans LinkSpan (fun a b => a.start ≤ b.start) :=
  ⟨fun _ _ _ h1 h2 => Nat.le_trans h1 h2⟩

/-- `LETTER[1]`, the page height in points. -/
def LETTER_H : ℚ := 792

/-- `MARGIN = 72` (one inch) from `src/main.py`. -/
def MARGIN : ℚ := 72

/-- Python's `str.splitlines` over the ASCII terminators LF, CR and CRLF
(the terminators occurring in generated text); a trailing terminator yields
no trailing empty paragraph.  `acc` holds the current paragraph reversed. -/
def splitlinesAux : List Char → List Char → List String
  | [], acc => if acc.isEmpty then [] else [acc.reverse.asString]
  | '\r' :: '\n' :: rest, acc => acc.reverse.asString :: splitlinesAux rest []
  | '\n' :: rest, acc => acc.reverse.asString :: splitlinesAux rest []
  | '\r' :: rest, acc => acc.reverse.asString :: splitlinesAux rest []
  | c :: rest, acc => splitlinesAux rest (c :: acc)
termination_by s _ => s.length

/-- `cover_letter.splitlines()`. -/
def pySplitlines (text : String) : List String := splitlinesAux text.data []

/-- `not paragraph.strip()`: the paragraph consists of whitespace only
(modelled over the ASCII whitespace characters). -/
def isBlankPara (p : String) : Bool := p.data.all (fun c => c.isWhitespace)

/-- Layout-level events of `_save_cover_letter_pdf`: a page break
(`c.showPage()`), the vertical step of a blank paragraph (recording the
decremented `current_y`), or a line drawn at height `y` (by
`_draw_line_with_links`, which draws everything at the `y` it is handed and
returns `y - (font_size + 2)`). -/
inductive LayoutEv where
  | page : LayoutEv
  | gap (y : ℚ) : LayoutEv
  | draw (line : String) (y : ℚ) : LayoutEv
deriving DecidableEq, Repr

/-- The inner loop `for line in simpleSplit(...)` of `_save_cover_letter_pdf`:
before each line, if `current_y <= MARGIN` a page break is emitted and the
cursor resets; the line is drawn at the resulting cursor, which then drops by
`font_size + 2`.  Returns the events and the final cursor. -/
def renderLines (fs : ℚ) : List String → ℚ → List LayoutEv × ℚ
  | [], y => ([], y)
  | line :: rest, y =>
    if y ≤ MARGIN then
      (.page :: .draw line (LETTER_H - MARGIN) ::
         (renderLines fs rest ((LETTER_H - MARGIN) - (fs + 2))).1,
       (renderLines fs rest ((LETTER_H - MARGIN) - (fs + 2))).2)
    else
      (.draw line y :: (renderLines fs rest (y - (fs + 2))).1,
       (renderLines fs rest (y - (fs + 2))).2)

/-- The paragraph loop of `_save_cover_letter_pdf`: a blank paragraph drops
the cursor by `font_size + 2` (breaking the page if the result is at or below
the margin), a non-blank paragraph is wrapped (`simpleSplit`, abstracted as
`wrap`) and its lines laid out by `renderLines`. -/
def renderParas (wrap : String → List String) (fs : ℚ) :
    List String → ℚ → List LayoutEv
  | [], _ => []
  | para :: rest, y =>
    if isBlankPara para then
      if y - (fs + 2) ≤ MARGIN then
        .gap (y - (fs + 2)) :: .page ::
          renderParas wrap fs rest (LETTER_H - MARGIN)
      else
        .gap (y - (fs + 2)) :: renderParas wrap fs rest (y - (fs + 2))
    else
      (renderLines fs (wrap para) y).1 ++
        renderParas wrap fs rest (renderLines fs (wrap para) y).2

/-- The whole layout pass of `_save_cover_letter_pdf`, starting at
`LETTER[1] - MARGIN`. -/
def renderLayout (wrap : String → List String) (fs : ℚ) (text : String) :
    List LayoutEv :=
  renderParas wrap fs (pySplitlines text) (LETTER_H - MARGIN)

/-- Validates a layout trace against a tracked cursor: every drawn line sits
exactly at the tracked cursor, which is strictly above the margin, and drops
by exactly `step` afterwards; every blank-paragraph gap drops the cursor by
exactly `step`; every page break happens only with the tracked cursor at or
below the margin and resets it to `LETTER_H - MARGIN`. -/
def checkLayout (step : ℚ) : ℚ → List LayoutEv → Bool
  | _, [] => true
  | cur, .page :: rest =>
    decide (cur ≤ MARGIN) && checkLayout step (LETTER_H - MARGIN) rest
  | cur, .gap y :: rest =>
    decide (y = cur - step) && checkLayout step (cur - step) rest
  | cur, .draw _ y :: rest =>
    decide (MARGIN < cur) && decide (y = cur) && checkLayout step (cur - step) rest

/-- ASCII whitespace, as split on by Python's `str.split()` (model). -/
def isSpaceCh (c : Char) : Bool := c.isWhitespace

/-- Modelled from the spec: the word-splitting step of reportlab's
`simpleSplit` (library code, not part of this repository): Python's
`str.split()`, the maximal whitespace-free words of the text.  `acc` holds
the characters of the word in progress, reversed. -/
def splitWordsAux : List Char → List Char → List (List Char)
  | [], acc => if acc.isEmpty then [] else [acc.reverse]
  | c :: cs, acc =>
    if isSpaceCh c then
      if acc.isEmpty then splitWordsAux cs []
      else acc.reverse :: splitWordsAux cs []
    else splitWordsAux cs (c :: acc)

/-- The words of a paragraph (Python's `str.split()`, modelled). -/
def splitWordsCh (s : List Char) : List (List Char) := splitWordsAux s []

/-- Additive string-width model of reportlab's `stringWidth` font metrics:
the width of a string is the sum of its per-character widths. -/
def chWidth (w : Char → ℕ) (l : List Char) : ℕ := (l.map w).sum

/-- Words joined by single spaces (Python's `' '.join`). -/
def joinCh : List (List Char) → List Char
  | [] => []
  | [u] => u
  | u :: us => u ++ ' ' :: joinCh us

/-- Modelled from the spec: the greedy accumulation loop of reportlab's
`simpleSplit` (library code, not part of this repository) — keep appending
the next word to the current line while the measured width of the extended
line stays within `maxW`; otherwise emit the current line and start a new
one with that word, so a single word wider than `maxW` ends up alone on its
line, never split. -/
def greedyAux (w : Char → ℕ) (maxW : ℕ) (cur : List Char) :
    List (List Char) → List (List Char)
  | [] => [cur]
  | word :: rest =>
    if chWidth w (cur ++ ' ' :: word) ≤ maxW then
      greedyAux w maxW (cur ++ ' ' :: word) rest
    else cur :: greedyAux w maxW word rest

/-- Modelled from the spec: reportlab's `simpleSplit` greedy word wrap of one
paragraph against width `maxW` with per-character metrics `w`. -/
def greedyWrapCh (w : Char → ℕ) (maxW : ℕ) : List (List Char) → List (List Char)
  | [] => []
  | x :: xs => greedyAux w maxW x xs

/-- Modelled from the spec: `simpleSplit(paragraph, font, size, maxW)` on one
paragraph, producing the physical line strings. -/
def simpleSplitSpec (w : Char → ℕ) (maxW : ℕ) (para : String) : List String :=
  (greedyWrapCh w maxW (splitWordsCh para.data)).map List.asString

/-- A word produced by splitting: nonempty and whitespace-free. -/
def GoodWord (u : List Char) : Prop :=
  u ≠ [] ∧ ∀ c ∈ u, isSpaceCh c = false

/-- Invariant of the physical lines the greedy wrap emits: the line is some
nonempty list of good words joined by single spaces, and it either fits in
`maxW` or is a single (possibly oversized) word. -/
def GoodLine (w : Char → ℕ) (maxW : ℕ) (l : List Char) : Prop :=
  ∃ ws : List (List Char), ws ≠ [] ∧ (∀ u ∈ ws, GoodWord u) ∧ l = joinCh ws ∧
    (chWidth w l ≤ maxW ∨ ∃ u, ws = [u])

/-- Drawing primitives emitted by `_draw_line_with_links`: font/color state
changes, absolutely positioned text runs (`drawString`), clickable link
rectangles (`linkURL`) and underline strokes (`c.line`).  Coordinates are
exact rationals; string widths come from the abstracted `stringWidth`
metrics `w`. -/
inductive DrawPrim where
  | setFont (font : String) (size : ℚ) : DrawPrim
  | setFillColor (r g b : ℚ) : DrawPrim
  | setStrokeColor (r g b : ℚ) : DrawPrim
  | text (str : String) (x y : ℚ) : DrawPrim
  | linkRect (uri : String) (x1 y1 x2 y2 : ℚ) : DrawPrim
  | strokeLine (x1 y1 x2 y2 : ℚ) : DrawPrim
deriving DecidableEq, Repr

/-- The horizontal position after drawing the plain gap text before a span:
`current_x` advances by the measured width of `line[lastE:start]` when that
gap is nonempty (`start > last_end` in the source). -/
def advanceX (w : String → ℚ) (lineCh : List Char) (currentX : ℚ)
    (lastE start : Nat) : ℚ :=
  if lastE < start then currentX + w (sliceOf lineCh lastE start) else currentX

/-- The `for start, end, display_text, url in links` loop of
`_draw_line_with_links`, followed by the trailing-text draw: emits the plain
gap run before each span, then the span in link color with its clickable
rectangle and underline, advancing `current_x` by measured widths; after the
last span the remaining text is drawn. -/
def drawLinksLoop (w : String → ℚ) (fontName : String) (fs : ℚ)
    (lineCh : List Char) (y : ℚ) :
    ℚ → Nat → List LinkSpan → List DrawPrim
  | currentX, lastE, [] =>
    if lastE < lineCh.length then
      [.setFont fontName fs,
       .text (sliceOf lineCh lastE lineCh.length) currentX y]
    else []
  | currentX, lastE, sp :: rest =>
    (if lastE < sp.start then
      [.setFont fontName fs, .text (sliceOf lineCh lastE sp.start) currentX y]
     else []) ++
    [.setFillColor 0 0 (4/5), .setFont fontName fs,
     .text sp.display_text (advanceX w lineCh currentX lastE sp.start) y,
     .linkRect sp.target_uri
       (advanceX w lineCh currentX lastE sp.start) (y - 2)
       (advanceX w lineCh currentX lastE sp.start + w sp.display_text) (y + fs),
     .setStrokeColor 0 0 (4/5),
     .strokeLine (advanceX w lineCh currentX lastE sp.start) (y - 1)
       (advanceX w lineCh currentX lastE sp.start + w sp.display_text) (y - 1),
     .setFillColor 0 0 0, .setStrokeColor 0 0 0] ++
    drawLinksLoop w fontName fs lineCh y
      (advanceX w lineCh currentX lastE sp.start + w sp.display_text)
      sp.stop rest

/-- `_draw_line_with_links`: detect links on the line; with no links draw the
whole line as one plain run, otherwise run the span loop; either way return
`y - (font_size + 2)` as the next cursor. -/
def drawLineWithLinks (w : String → ℚ) (fontName : String) (fs : ℚ)
    (line : String) (x y : ℚ) : List DrawPrim × ℚ :=
  if (findLinksInText line).isEmpty then
    ([.setFont fontName fs, .text line x y], y - (fs + 2))
  else
    (drawLinksLoop w fontName fs line.data y x 0 (findLinksInText line),
     y - (fs + 2))

/-- The target URIs of the clickable rectangles of a primitive list, in
emission order. -/
def rectURIs (ps : List DrawPrim) : List String :=
  ps.filterMap (fun p =>
    match p with
    | .linkRect uri _ _ _ _ => some uri
    | _ => none)

/-- The concatenation of all text runs of a primitive list, in emission
order. -/
def textConcatCh (ps : List DrawPrim) : List Char :=
  ps.flatMap (fun p =>
    match p with
    | .text str _ _ => str.data
    | _ => [])

/-- The span list is compatible with position `lastE` of the line: spans sit
at increasing offsets from `lastE` on, stay within the line, and display the
slice they cover. -/
def SpansOK (lineCh : List Char) : Nat → List LinkSpan → Prop
  | _, [] => True
  | lastE, sp :: rest =>
    lastE ≤ sp.start ∧ sp.start ≤ sp.stop ∧ sp.stop ≤ lineCh.length ∧
    sp.display_text = sliceOf lineCh sp.start sp.stop ∧
    SpansOK lineCh sp.stop rest

/-- `_resolve_font_path`: error if the requested family is not among the
installed families (`tkfontchooser.families()`, abstracted as `families`);
otherwise look the font file up on disk (`_find_system_font_file`, an OS
search abstracted as `findFile`), and error if no file is found.  No other
family is ever consulted. -/
def resolveFontPath (families : List String)
    (findFile : String → Option String) (fontName : String) :
    Except String String :=
  if fontName ∈ families then
    match findFile fontName with
    | some p => .ok p
    | none =>
      .error ("Unable to locate the '" ++ fontName ++
        "' font file on this system.")
  else
    .error ("System font '" ++ fontName ++
      "' not found. Ensure it is installed or choose another font.")

/-- `_register_font`: a font already in reportlab's registry (abstracted as
`registered`) short-circuits; otherwise the font path is resolved and the
font registered (the registration side effect is external and modelled as
succeeding); a resolution failure propagates (`raise`). -/
def registerFont (registered families : List String)
    (findFile : String → Option String) (fontName : String) :
    Except String Unit :=
  if fontName ∈ registered then .ok ()
  else
    match resolveFontPath families findFile fontName with
    | .ok _ => .ok ()
    | .error e => .error e

/-- `_save_cover_letter_pdf` up to drawing: `self._register_font()` runs
first; only on success is the canvas created and the layout produced.  A
registration error therefore yields no layout events at all. -/
def saveCoverLetterPdf (registered families : List String)
    (findFile : String → Option String) (wrap : String → List String)
    (fontName : String) (fs : ℚ) (text : String) :
    Except String (List LayoutEv) :=
  match registerFont registered families findFile fontName with
  | .error e => .error e
  | .ok _ => .ok (renderLayout wrap fs text)

lemma ends_ge {r : RE} {s : List Char} {i e : Nat} (h : e ∈ ends r s i) :
    i ≤ e := by
  induction r generalizing i e with
  | eps => simp [ends] at h; omega
  | lit cs =>
    simp only [ends] at h
    split at h <;> simp at h
    omega
  | plusCls p =>
    simp only [ends, List.mem_map, List.mem_range] at h
    obtain ⟨k, hk, rfl⟩ := h
    omega
  | starCls p =>
    simp only [ends, List.mem_map, List.mem_range] at h
    obtain ⟨k, hk, rfl⟩ := h
    omega
  | seq a b iha ihb =>
    simp only [ends, List.mem_flatMap] at h
    obtain ⟨j, hj, hje⟩ := h
    exact le_trans (iha hj) (ihb hje)
  | alt a b iha ihb =>
    simp only [ends, List.mem_append] at h
    rcases h with h | h
    · exact iha h
    · exact ihb h
  | wb =>
    simp only [ends] at h
    split at h <;> simp at h
    omega
  | nlb c =>
    simp only [ends] at h
    split at h <;> simp at h
    omega

lemma ends_le {r : RE} {s : List Char} {i e : Nat} (hi : i ≤ s.length)
    (h : e ∈ ends r s i) : e ≤ s.length := by
  induction r generalizing i e with
  | eps => simp [ends] at h; omega
  | lit cs =>
    simp only [ends] at h
    split at h <;> simp at h
    next hpre =>
      have hle : cs.length ≤ (s.drop i).length :=
        (List.isPrefixOf_iff_prefix.mp hpre).length_le
      rw [List.length_drop] at hle
      omega
  | plusCls p =>
    simp only [ends, List.mem_map, List.mem_range] at h
    obtain ⟨k, hk, rfl⟩ := h
    have hrun : ((s.drop i).takeWhile p).length ≤ (s.drop i).length :=
      (List.takeWhile_sublist p).length_le
    rw [List.length_drop] at hrun
    omega
  | starCls p =>
    simp only [ends, List.mem_map, List.mem_range] at h
    obtain ⟨k, hk, rfl⟩ := h
    have hrun : ((s.drop i).takeWhile p).length ≤ (s.drop i).length :=
      (List.takeWhile_sublist p).length_le
    rw [List.length_drop] at hrun
    omega
  | seq a b iha ihb =>
    simp only [ends, List.mem_flatMap] at h
    obtain ⟨j, hj, hje⟩ := h
    exact ihb (iha hi hj) hje
  | alt a b iha ihb =>
    simp only [ends, List.mem_append] at h
    rcases h with h | h
    · exact iha hi h
    · exact ihb hi h
  | wb =>
    simp only [ends] at h
    split at h <;> simp at h
    omega
  | nlb c =>
    simp only [ends] at h
    split at h <;> simp at h
    omega

lemma ends_needs {r : RE} (hr : needsChar r = true) {s : List Char}
    {i e : Nat} (h : e ∈ ends r s i) : i + 1 ≤ e := by
  induction r generalizing i e with
  | eps => simp [needsChar] at hr
  | lit cs =>
    simp only [ends] at h
    split at h <;> simp at h
    simp only [needsChar, Bool.not_eq_true', List.isEmpty_eq_false] at hr
    have : cs.length ≠ 0 := fun hn => hr (List.length_eq_zero.mp hn)
    omega
  | plusCls p =>
    simp only [ends, List.mem_map, List.mem_range] at h
    obtain ⟨k, hk, rfl⟩ := h
    omega
  | starCls p => simp [needsChar] at hr
  | seq a b iha ihb =>
    simp only [ends, List.mem_flatMap] at h
    obtain ⟨j, hj, hje⟩ := h
    simp only [needsChar, Bool.or_eq_true] at hr
    rcases hr with hr | hr
    · exact le_trans (iha hr hj) (ends_ge hje)
    · have := ends_ge hj
      have := ihb hr hje
      omega
  | alt a b iha ihb =>
    simp only [needsChar, Bool.and_eq_true] at hr
    simp only [ends, List.mem_append] at h
    rcases h with h | h
    · exact iha hr.1 h
    · exact ihb hr.2 h
  | wb => simp [needsChar] at hr
  | nlb c => simp [needsChar] at hr

lemma matchAt_mem {r : RE} {s : List Char} {i e : Nat}
    (h : matchAt r s i = some e) : e ∈ ends r s i :=
  List.mem_of_mem_head? (Option.mem_def.mpr h)

lemma finditerAux_lb {r : RE} {s : List Char} :
    ∀ {fuel i : Nat} {p : Nat × Nat}, p ∈ finditerAux r s fuel i → i ≤ p.1 := by
  intro fuel
  induction fuel with
  | zero => intro i p h; simp [finditerAux] at h
  | succ n ih =>
    intro i p h
    rw [finditerAux] at h
    split at h
    · rcases hm : matchAt r s i with _ | e <;> rw [hm] at h
      · exact le_trans (Nat.le_succ i) (ih h)
      · rcases List.mem_cons.mp h with rfl | h'
        · exact le_refl _
        · exact le_trans (le_trans (Nat.le_succ i) (Nat.le_max_right e (i + 1)))
            (ih h')
    · simp at h

lemma finditerAux_spans {r : RE} (hr : needsChar r = true) {s : List Char} :
    ∀ {fuel i : Nat} {p : Nat × Nat}, p ∈ finditerAux r s fuel i →
      p.1 < p.2 ∧ p.2 ≤ s.length := by
  intro fuel
  induction fuel with
  | zero => intro i p h; simp [finditerAux] at h
  | succ n ih =>
    intro i p h
    rw [finditerAux] at h
    split at h
    · next hi =>
      rcases hm : matchAt r s i with _ | e <;> rw [hm] at h
      · exact ih h
      · rcases List.mem_cons.mp h with rfl | h'
        · have he := matchAt_mem hm
          exact ⟨ends_needs hr he, ends_le hi he⟩
        · exact ih h'
    · simp at h

lemma finditerAux_pairwise {r : RE} {s : List Char} :
    ∀ {fuel i : Nat},
      (finditerAux r s fuel i).Pairwise
        (fun a b : Nat × Nat => a.2 ≤ b.1 ∧ a.1 < b.1) := by
  intro fuel
  induction fuel with
  | zero => intro i; simp [finditerAux]
  | succ n ih =>
    intro i
    rw [finditerAux]
    split
    · rcases hm : matchAt r s i with _ | e
      · exact ih
      · refine List.pairwise_cons.mpr ⟨fun b hb => ?_, ih⟩
        have hlb := finditerAux_lb hb
        constructor
        · exact le_trans (Nat.le_max_left e (i + 1)) hlb
        · have : i + 1 ≤ b.1 := le_trans (Nat.le_max_right e (i + 1)) hlb
          omega
    · simp

lemma email_needsChar : needsChar EMAIL_PATTERN = true := rfl

lemma url_needsChar : needsChar URL_PATTERN = true := rfl

lemma mem_emailLinks {s : List Char} {sp : LinkSpan} (h : sp ∈ emailLinks s) :
    sp.start < sp.stop ∧ sp.stop ≤ s.length ∧
    sp.display_text = sliceOf s sp.start sp.stop ∧
    sp.target_uri = "mailto:" ++ sp.display_text := by
  simp only [emailLinks, List.mem_map] at h
  obtain ⟨p, hp, rfl⟩ := h
  have hs := finditerAux_spans email_needsChar hp
  exact ⟨hs.1, hs.2, rfl, rfl⟩

lemma mem_urlLinks {s : List Char} {sp : LinkSpan} (h : sp ∈ urlLinks s) :
    sp.start < sp.stop ∧ sp.stop ≤ s.length ∧
    sp.display_text = sliceOf s sp.start sp.stop ∧
    sp.target_uri =
      (if hasScheme sp.display_text then sp.display_text
       else "https://" ++ sp.display_text) := by
  simp only [urlLinks, List.mem_map] at h
  obtain ⟨p, hp, rfl⟩ := h
  have hp' := (List.mem_filter.mp hp).1
  have hs := finditerAux_spans url_needsChar hp'
  exact ⟨hs.1, hs.2, rfl, rfl⟩

lemma emailLinks_pairwise (s : List Char) :
    (emailLinks s).Pairwise (fun a b => a.stop ≤ b.start ∧ a.start < b.start) := by
  rw [emailLinks]
  exact List.pairwise_map.mpr (finditerAux_pairwise.imp (fun h => h))

lemma urlLinks_pairwise (s : List Char) :
    (urlLinks s).Pairwise (fun a b => a.stop ≤ b.start ∧ a.start < b.start) := by
  rw [urlLinks]
  exact List.pairwise_map.mpr
    ((List.Pairwise.sublist (List.filter_sublist _) finditerAux_pairwise).imp
      (fun h => h))

lemma urlLinks_email_disjoint {s : List Char} {u em : LinkSpan}
    (hu : u ∈ urlLinks s) (he : em ∈ emailLinks s) : ¬ spansOverlap em u := by
  intro hov
  simp only [urlLinks, List.mem_map] at hu
  obtain ⟨p, hp, rfl⟩ := hu
  simp only [emailLinks, List.mem_map] at he
  obtain ⟨q, hq, rfl⟩ := he
  simp only [spansOverlap] at hov
  have hcond := (List.mem_filter.mp hp).2
  simp only [Bool.not_eq_true', List.any_eq_false] at hcond
  have hj : max q.1 p.1 ∈ List.range' p.1 (p.2 - p.1) := by
    rw [List.mem_range'_1]
    have h1 : p.1 ≤ max q.1 p.1 := Nat.le_max_right q.1 p.1
    have h2 : max q.1 p.1 < p.2 := lt_of_lt_of_le hov (Nat.min_le_right _ _)
    omega
  have hmem : max q.1 p.1 ∈ emailPositions s := by
    rw [emailPositions, List.mem_flatMap]
    refine ⟨q, hq, ?_⟩
    rw [List.mem_range'_1]
    have h1 : q.1 ≤ max q.1 p.1 := Nat.le_max_left q.1 p.1
    have h2 : max q.1 p.1 < q.2 := lt_of_lt_of_le hov (Nat.min_le_left _ _)
    omega
  have := hcond _ hj
  rw [List.contains] at this
  exact this (List.elem_iff.mpr hmem)

lemma spansOverlap_comm {a b : LinkSpan} :
    spansOverlap a b ↔ spansOverlap b a := by
  rw [spansOverlap, spansOverlap, Nat.max_comm, Nat.min_comm]

lemma not_overlap_of_le {a b : LinkSpan} (h : a.stop ≤ b.start) :
    ¬ spansOverlap a b := by
  intro hov
  have h1 : b.start ≤ max a.start b.start := Nat.le_max_right _ _
  have h2 : min a.stop b.stop ≤ a.stop := Nat.min_le_left _ _
  have := lt_of_le_of_lt h1 (lt_of_lt_of_le hov h2)
  omega

lemma mem_findLinks {text : String} {sp : LinkSpan}
    (h : sp ∈ findLinksInText text) :
    sp.start < sp.stop ∧ sp.stop ≤ text.data.length ∧
    sp.display_text = sliceOf text.data sp.start sp.stop := by
  rw [findLinksInText] at h
  have h' := (List.perm_insertionSort _ _).mem_iff.mp h
  rcases List.mem_append.mp h' with he | hu
  · have := mem_emailLinks he
    exact ⟨this.1, this.2.1, this.2.2.1⟩
  · have := mem_urlLinks hu
    exact ⟨this.1, this.2.1, this.2.2.1⟩

lemma findLinks_pairwise_core (text : String) :
    (findLinksInText text).Pairwise
      (fun a b => ¬ spansOverlap a b ∧ a.start < b.start) := by
  have hdisj :
      (emailLinks text.data ++ urlLinks text.data).Pairwise
        (fun a b => ¬ spansOverlap a b) := by
    refine List.pairwise_append.mpr ⟨?_, ?_, ?_⟩
    · exact (emailLinks_pairwise text.data).imp (fun h => not_overlap_of_le h.1)
    · exact (urlLinks_pairwise text.data).imp (fun h => not_overlap_of_le h.1)
    · intro em hem u hu
      exact urlLinks_email_disjoint hu hem
  have hperm := List.perm_insertionSort
    (fun a b : LinkSpan => a.start ≤ b.start)
    (emailLinks text.data ++ urlLinks text.data)
  have hdisj' : (findLinksInText text).Pairwise (fun a b => ¬ spansOverlap a b) := by
    rw [findLinksInText]
    exact (List.Perm.pairwise_iff
      (fun h hov => h (spansOverlap_comm.mp hov)) hperm).mpr hdisj
  have hsorted : (findLinksInText text).Pairwise
      (fun a b : LinkSpan => a.start ≤ b.start) := by
    rw [findLinksInText]
    exact List.sorted_insertionSort _ _
  refine (hdisj'.and hsorted).imp_of_mem (fun {a b} ha hb hab => ?_)
  refine ⟨hab.1, ?_⟩
  rcases Nat.lt_or_ge a.start b.start with hlt | hge
  · exact hlt
  · exfalso
    have hne := mem_findLinks ha
    have hnb := mem_findLinks hb
    have heq : a.start = b.start := le_antisymm hab.2 hge
    exact hab.1 (by
      rw [spansOverlap]
      have h1 : max a.start b.start = a.start := by omega
      rw [h1, Nat.lt_min]
      omega)

/-- Claim C1: for every input line, the spans returned by
`_find_links_in_text` are pairwise non-overlapping and sorted strictly
ascending by start offset (emails are found first, their offsets are claimed,
overlapping URL matches are discarded, and the merged list is sorted). -/
theorem findLinks_disjoint_sorted (text : String) :
    (findLinksInText text).Pairwise
      (fun a b => ¬ spansOverlap a b ∧ a.start < b.start) :=
  findLinks_pairwise_core text

/-- Claim C2: detection on `"Contact me at a@b.com or visit b.com/x"`
returns exactly the email span (target `mailto:a@b.com`) followed by the URL
span (target `https://b.com/x`), in that order by start offset. -/
theorem detect_contact_line :
    findLinksInText "Contact me at a@b.com or visit b.com/x" =
      [⟨14, 21, "a@b.com", "mailto:a@b.com"⟩,
       ⟨31, 38, "b.com/x", "https://b.com/x"⟩] := by decide

/-- Claim C3: on the line `"a@b.com"` detection returns exactly the one email
span and the URL pass contributes zero matches (the negative lookbehind kills
the `b.com` candidate); moreover the claimed-offset discard would also have
rejected the hypothetical `b.com` span at offsets `[2, 7)`, since those
offsets are claimed by the email. -/
theorem detect_lone_email :
    findLinksInText "a@b.com" = [⟨0, 7, "a@b.com", "mailto:a@b.com"⟩] ∧
    finditerFrom URL_PATTERN "a@b.com".data = [] ∧
    (List.range' 2 5).any
      (fun j => (emailPositions "a@b.com".data).contains j) = true :=
  ⟨by decide, by decide, by decide⟩

/-- Claim C4: every span surviving the URL pass displays the matched text
verbatim (the slice of the line at its offsets), and its target URI is the
matched text itself when it already starts with `http://` or `https://`, and
`https://` prepended to the matched text otherwise — the added scheme never
appears in the display text. -/
theorem urlLinks_scheme_display (s : List Char) (sp : LinkSpan)
    (h : sp ∈ urlLinks s) :
    sp.display_text = sliceOf s sp.start sp.stop ∧
    (hasScheme sp.display_text = true → sp.target_uri = sp.display_text) ∧
    (hasScheme sp.display_text = false →
      sp.target_uri = "https://" ++ sp.display_text) := by
  obtain ⟨-, -, hdisp, htgt⟩ := mem_urlLinks h
  refine ⟨hdisp, fun hs => ?_, fun hs => ?_⟩
  · rw [htgt, if_pos hs]
  · rw [htgt, if_neg (by rw [hs]; exact Bool.false_ne_true)]

/-- Witness for C4 at the concrete line `"visit b.com"`: its URL span (which
has no scheme) gets target `https://b.com` while displaying `b.com`. -/
theorem urlLinks_scheme_display_witness :
    ((⟨6, 11, "b.com", "https://b.com"⟩ : LinkSpan) ∈
        urlLinks "visit b.com".data) ∧
    (⟨6, 11, "b.com", "https://b.com"⟩ : LinkSpan).target_uri =
      "https://" ++ (⟨6, 11, "b.com", "https://b.com"⟩ : LinkSpan).display_text :=
  ⟨by decide,
    (urlLinks_scheme_display "visit b.com".data
      ⟨6, 11, "b.com", "https://b.com"⟩ (by decide)).2.2 (by decide)⟩

lemma margin_lt_top : MARGIN < LETTER_H - MARGIN := by
  norm_num [MARGIN, LETTER_H]

lemma renderLines_check (fs : ℚ) :
    ∀ (lines : List String) (y : ℚ) (tail : List LayoutEv),
      checkLayout (fs + 2) y ((renderLines fs lines y).1 ++ tail) =
        checkLayout (fs + 2) (renderLines fs lines y).2 tail := by
  intro lines
  induction lines with
  | nil => intro y tail; simp [renderLines]
  | cons line rest ih =>
    intro y tail
    rw [renderLines]
    split
    · next h =>
      simp only [List.cons_append, checkLayout, List.append_eq]
      rw [ih, decide_eq_true h, decide_eq_true margin_lt_top]
      simp
    · next h =>
      simp only [List.cons_append, checkLayout, List.append_eq]
      rw [ih, decide_eq_true (not_le.mp h)]
      simp

lemma renderParas_check (wrap : String → List String) (fs : ℚ) :
    ∀ (paras : List String) (y : ℚ),
      checkLayout (fs + 2) y (renderParas wrap fs paras y) = true := by
  intro paras
  induction paras with
  | nil => intro y; simp [renderParas, checkLayout]
  | cons para rest ih =>
    intro y
    rw [renderParas]
    split
    · split
      · next hy =>
        simp only [checkLayout, ih]
        simp [hy]
      · next hy =>
        simp only [checkLayout, ih]
        simp
    · rw [renderLines_check, ih]

/-- Claim C5: for every document, wrap function and font size, the layout
trace of `_save_cover_letter_pdf` is validated by `checkLayout`: every drawn
line sits exactly at the tracked cursor (strictly above the margin), the
cursor drops by exactly `font_size + 2` per drawn line or blank-paragraph
step (hence the drawn `y` values on one page strictly decrease for any
positive font size), and a page break occurs exactly when the `y` value
about to be used is `<= MARGIN`, resetting it to `LETTER_H - MARGIN`. -/
theorem layout_cursor_steps (wrap : String → List String) (fs : ℚ)
    (text : String) :
    checkLayout (fs + 2) (LETTER_H - MARGIN) (renderLayout wrap fs text) = true :=
  renderParas_check wrap fs (pySplitlines text) (LETTER_H - MARGIN)

lemma chWidth_append (w : Char → ℕ) (l₁ l₂ : List Char) :
    chWidth w (l₁ ++ l₂) = chWidth w l₁ + chWidth w l₂ := by
  simp [chWidth]

lemma chWidth_cons (w : Char → ℕ) (c : Char) (l : List Char) :
    chWidth w (c :: l) = w c + chWidth w l := by
  simp [chWidth]

lemma splitWordsAux_good :
    ∀ (s acc : List Char), (∀ c ∈ acc, isSpaceCh c = false) →
      ∀ u ∈ splitWordsAux s acc, GoodWord u := by
  intro s
  induction s with
  | nil =>
    intro acc hacc u hu
    rw [splitWordsAux] at hu
    split at hu
    · simp at hu
    · next hne =>
      simp at hu
      subst hu
      refine ⟨by simpa using hne, fun c hc => hacc c (List.mem_reverse.mp hc)⟩
  | cons c cs ih =>
    intro acc hacc u hu
    rw [splitWordsAux] at hu
    split at hu
    · split at hu
      · exact ih [] (by simp) u hu
      · next hne =>
        rcases List.mem_cons.mp hu with rfl | hu'
        · refine ⟨by simpa using hne, fun d hd => hacc d (List.mem_reverse.mp hd)⟩
        · exact ih [] (by simp) u hu'
    · next hc =>
      refine ih (c :: acc) ?_ u hu
      intro d hd
      rcases List.mem_cons.mp hd with rfl | hd'
      · exact Bool.of_not_eq_true hc
      · exact hacc d hd'

lemma splitWordsCh_good (s : List Char) : ∀ u ∈ splitWordsCh s, GoodWord u :=
  splitWordsAux_good s [] (by simp)

lemma splitWordsAux_word (t : List Char) :
    ∀ (u acc : List Char), (∀ c ∈ u, isSpaceCh c = false) →
      splitWordsAux (u ++ t) acc = splitWordsAux t (u.reverse ++ acc) := by
  intro u
  induction u with
  | nil => intro acc _; simp
  | cons c cs ih =>
    intro acc h
    rw [List.cons_append, splitWordsAux,
      if_neg (by simp [h c (List.mem_cons_self c cs)]),
      ih (c :: acc) (fun d hd => h d (List.mem_cons_of_mem c hd))]
    simp

lemma joinCh_cons_cons (u v : List Char) (vs : List (List Char)) :
    joinCh (u :: v :: vs) = u ++ ' ' :: joinCh (v :: vs) := rfl

lemma splitWords_joinCh : ∀ ws : List (List Char),
    (∀ u ∈ ws, GoodWord u) → splitWordsCh (joinCh ws) = ws := by
  intro ws
  induction ws with
  | nil => intro; rfl
  | cons u us ih =>
    intro h
    obtain ⟨hu, hup⟩ := h u (List.mem_cons_self u us)
    cases us with
    | nil =>
      show splitWordsAux (joinCh [u]) [] = [u]
      have : joinCh [u] = u ++ [] := by simp [joinCh]
      rw [this, splitWordsAux_word [] u [] hup, splitWordsAux]
      rw [if_neg (by simp [hu])]
      simp
    | cons v vs =>
      show splitWordsAux (joinCh (u :: v :: vs)) [] = u :: v :: vs
      rw [joinCh_cons_cons, splitWordsAux_word (' ' :: joinCh (v :: vs)) u [] hup,
        splitWordsAux, if_pos (show isSpaceCh ' ' = true from rfl),
        if_neg (by simp [hu])]
      rw [show splitWordsAux (joinCh (v :: vs)) [] = v :: vs from
        ih (fun x hx => h x (List.mem_cons_of_mem u hx))]
      simp

lemma joinCh_append_single (word : List Char) : ∀ ws : List (List Char),
    ws ≠ [] → joinCh (ws ++ [word]) = joinCh ws ++ ' ' :: word := by
  intro ws
  induction ws with
  | nil => intro hne; exact absurd rfl hne
  | cons u us ih =>
    intro _
    cases us with
    | nil => rfl
    | cons v vs =>
      rw [List.cons_append, List.cons_append, joinCh_cons_cons,
        ← List.cons_append, ih (by simp), joinCh_cons_cons]
      simp

lemma joinCh_glue (a b : List Char) (ws : List (List Char)) :
    joinCh ((a ++ ' ' :: b) :: ws) = a ++ ' ' :: joinCh (b :: ws) := by
  cases ws with
  | nil => rfl
  | cons v vs =>
    rw [joinCh_cons_cons, joinCh_cons_cons, List.append_assoc]
    rfl

lemma greedyAux_good (w : Char → ℕ) (maxW : ℕ) :
    ∀ (rest : List (List Char)) (cur : List Char),
      GoodLine w maxW cur → (∀ u ∈ rest, GoodWord u) →
      ∀ l ∈ greedyAux w maxW cur rest, GoodLine w maxW l := by
  intro rest
  induction rest with
  | nil =>
    intro cur hcur _ l hl
    rw [greedyAux] at hl
    simp at hl
    subst hl
    exact hcur
  | cons word ws ih =>
    intro cur hcur hrest l hl
    rw [greedyAux] at hl
    split at hl
    · next hle =>
      obtain ⟨ws₀, hne, hgood, rfl, _⟩ := hcur
      refine ih (joinCh ws₀ ++ ' ' :: word)
        ⟨ws₀ ++ [word], by simp, ?_, ?_, Or.inl hle⟩
        (fun u hu => hrest u (List.mem_cons_of_mem word hu)) l hl
      · intro u hu
        rcases List.mem_append.mp hu with hu' | hu'
        · exact hgood u hu'
        · simp at hu'
          subst hu'
          exact hrest u (List.mem_cons_self u ws)
      · rw [joinCh_append_single word ws₀ hne]
    · next hgt =>
      rcases List.mem_cons.mp hl with rfl | hl'
      · exact hcur
      · refine ih word ⟨[word], by simp, ?_, rfl, Or.inr ⟨word, rfl⟩⟩
          (fun u hu => hrest u (List.mem_cons_of_mem word hu)) l hl'
        intro u hu
        simp at hu
        subst hu
        exact hrest u (List.mem_cons_self u ws)

lemma greedyAux_total (w : Char → ℕ) (maxW : ℕ) :
    ∀ (rest : List (List Char)) (cur : List Char),
      chWidth w (joinCh (cur :: rest)) ≤ maxW →
      greedyAux w maxW cur rest = [joinCh (cur :: rest)] := by
  intro rest
  induction rest with
  | nil => intro cur h; rfl
  | cons word ws ih =>
    intro cur h
    rw [joinCh_cons_cons] at h
    have hcand : chWidth w (cur ++ ' ' :: word) ≤ maxW := by
      cases ws with
      | nil => exact h
      | cons v vs =>
        rw [joinCh_cons_cons, chWidth_append, chWidth_cons,
          chWidth_append, chWidth_cons] at h
        rw [chWidth_append, chWidth_cons]
        omega
    rw [greedyAux, if_pos hcand,
      ih (cur ++ ' ' :: word) (by rw [joinCh_glue]; exact h), joinCh_glue,
      joinCh_cons_cons]

/-- Claim C6 (`simpleSplit` is reportlab library code, modelled from the
spec): the greedy word wrap is idempotent — re-wrapping any physical line it
produced, against the same width and metrics, yields exactly that line
again; equivalently every produced line either fits in `maxW` or is a single
word placed alone rather than split. -/
theorem simpleSplit_idempotent (w : Char → ℕ) (maxW : ℕ) (para line : String)
    (h : line ∈ simpleSplitSpec w maxW para) :
    simpleSplitSpec w maxW line = [line] := by
  rw [simpleSplitSpec] at h
  simp only [List.mem_map] at h
  obtain ⟨lc, hlc, rfl⟩ := h
  have hgl : GoodLine w maxW lc := by
    rcases hsp : splitWordsCh para.data with _ | ⟨x, xs⟩ <;> rw [hsp] at hlc
    · simp [greedyWrapCh] at hlc
    · have hx : ∀ u ∈ x :: xs, GoodWord u := by
        rw [← hsp]
        exact splitWordsCh_good para.data
      have hx0 : GoodLine w maxW x := by
        refine ⟨[x], by simp, ?_, rfl, Or.inr ⟨x, rfl⟩⟩
        intro u hu
        simp at hu
        rw [hu]
        exact hx x (List.mem_cons_self x xs)
      rw [greedyWrapCh] at hlc
      exact greedyAux_good w maxW xs x hx0
        (fun u hu => hx u (List.mem_cons_of_mem x hu)) lc hlc
  obtain ⟨ws, hne, hgood, rfl, hdisj⟩ := hgl
  have hdata : (List.asString (joinCh ws)).data = joinCh ws := rfl
  rw [simpleSplitSpec, hdata, splitWords_joinCh ws hgood]
  rcases hdisj with hle | ⟨u, rfl⟩
  · obtain ⟨x, xs, rfl⟩ := List.exists_cons_of_ne_nil hne
    rw [greedyWrapCh, greedyAux_total w maxW xs x hle]
    rfl
  · rfl

/-- Witness for C6: wrapping `"aa bb cc"` at width 5 with all-ones metrics
produces the line `"aa bb"`, and re-wrapping that line reproduces it. -/
theorem simpleSplit_idempotent_witness :
    ("aa bb" ∈ simpleSplitSpec (fun _ => 1) 5 "aa bb cc") ∧
    simpleSplitSpec (fun _ => 1) 5 "aa bb" = ["aa bb"] :=
  ⟨by decide, simpleSplit_idempotent (fun _ => 1) 5 "aa bb cc" "aa bb" (by decide)⟩

lemma drawLinksLoop_mem (w : String → ℚ) (fontName : String) (fs : ℚ)
    (lineCh : List Char) (y : ℚ) :
    ∀ (sps : List LinkSpan) (currentX : ℚ) (lastE : Nat) (sp : LinkSpan),
      sp ∈ sps →
      ∃ xs : ℚ,
        DrawPrim.text sp.display_text xs y ∈
          drawLinksLoop w fontName fs lineCh y currentX lastE sps ∧
        DrawPrim.strokeLine xs (y - 1) (xs + w sp.display_text) (y - 1) ∈
          drawLinksLoop w fontName fs lineCh y currentX lastE sps ∧
        DrawPrim.linkRect sp.target_uri xs (y - 2)
            (xs + w sp.display_text) (y + fs) ∈
          drawLinksLoop w fontName fs lineCh y currentX lastE sps := by
  intro sps
  induction sps with
  | nil => intro _ _ sp h; exact absurd h (List.not_mem_nil sp)
  | cons s rest ih =>
    intro currentX lastE sp h
    rcases List.mem_cons.mp h with rfl | h'
    · refine ⟨advanceX w lineCh currentX lastE sp.start, ?_, ?_, ?_⟩ <;>
        (rw [drawLinksLoop]; refine List.mem_append.mpr (Or.inl ?_);
         refine List.mem_append.mpr (Or.inr ?_); simp)
    · obtain ⟨xs, h1, h2, h3⟩ := ih
        (advanceX w lineCh currentX lastE s.start + w s.display_text)
        s.stop sp h'
      refine ⟨xs, ?_, ?_, ?_⟩ <;>
        (rw [drawLinksLoop]; exact List.mem_append.mpr (Or.inr (by assumption)))

/-- Claim C7: every detected span is drawn at some horizontal position `xs`
with an underline stroke at `y - 1` spanning its measured width and a
clickable rectangle with corners `(xs, y-2)` and `(xs + width, y + fs)`
bound to its target URI, where `width` is the measured width of the span's
display text. -/
theorem link_draw_geometry (w : String → ℚ) (fontName : String) (fs : ℚ)
    (line : String) (x y : ℚ) (sp : LinkSpan)
    (h : sp ∈ findLinksInText line) :
    ∃ xs : ℚ,
      DrawPrim.text sp.display_text xs y ∈
        (drawLineWithLinks w fontName fs line x y).1 ∧
      DrawPrim.strokeLine xs (y - 1) (xs + w sp.display_text) (y - 1) ∈
        (drawLineWithLinks w fontName fs line x y).1 ∧
      DrawPrim.linkRect sp.target_uri xs (y - 2)
          (xs + w sp.display_text) (y + fs) ∈
        (drawLineWithLinks w fontName fs line x y).1 := by
  rw [drawLineWithLinks]
  rw [if_neg (fun he => by
    rw [List.isEmpty_iff.mp he] at h
    exact absurd h (List.not_mem_nil sp))]
  exact drawLinksLoop_mem w fontName fs line.data y (findLinksInText line)
    x 0 sp h

/-- Witness for C7 at the line `"a@b.com"` with length-proportional
metrics. -/
theorem link_draw_geometry_witness :
    ((⟨0, 7, "a@b.com", "mailto:a@b.com"⟩ : LinkSpan) ∈
        findLinksInText "a@b.com") ∧
    (∃ xs : ℚ,
      DrawPrim.text "a@b.com" xs 720 ∈
        (drawLineWithLinks (fun t => (t.length : ℚ)) "F" 12
          "a@b.com" 72 720).1 ∧
      DrawPrim.strokeLine xs (720 - 1) (xs + 7) (720 - 1) ∈
        (drawLineWithLinks (fun t => (t.length : ℚ)) "F" 12
          "a@b.com" 72 720).1 ∧
      DrawPrim.linkRect "mailto:a@b.com" xs (720 - 2) (xs + 7) (720 + 12) ∈
        (drawLineWithLinks (fun t => (t.length : ℚ)) "F" 12
          "a@b.com" 72 720).1) :=
  ⟨by decide,
    link_draw_geometry (fun t => (t.length : ℚ)) "F" 12 "a@b.com" 72 720
      ⟨0, 7, "a@b.com", "mailto:a@b.com"⟩ (by decide)⟩

lemma rectURIs_loop (w : String → ℚ) (fontName : String) (fs : ℚ)
    (lineCh : List Char) (y : ℚ) :
    ∀ (sps : List LinkSpan) (currentX : ℚ) (lastE : Nat),
      rectURIs (drawLinksLoop w fontName fs lineCh y currentX lastE sps) =
        sps.map (fun sp => sp.target_uri) := by
  intro sps
  induction sps with
  | nil =>
    intro currentX lastE
    rw [drawLinksLoop]
    split <;> simp [rectURIs]
  | cons s rest ih =>
    intro currentX lastE
    rw [drawLinksLoop]
    simp only [rectURIs, List.filterMap_append] at ih ⊢
    rw [ih]
    split <;> simp

/-- Claim C8: the clickable rectangles a rendered line emits correspond
one-to-one, in order, to the spans the detector returns for that line, each
bound to the corresponding span's target URI unchanged. -/
theorem rects_match_spans (w : String → ℚ) (fontName : String) (fs : ℚ)
    (line : String) (x y : ℚ) :
    rectURIs (drawLineWithLinks w fontName fs line x y).1 =
      (findLinksInText line).map (fun sp => sp.target_uri) := by
  rw [drawLineWithLinks]
  split
  · next he =>
    rw [List.isEmpty_iff.mp he]
    simp [rectURIs]
  · exact rectURIs_loop w fontName fs line.data y (findLinksInText line) x 0

lemma findLinks_chain (line : String) :
    (findLinksInText line).Pairwise (fun a b => a.stop ≤ b.start) := by
  refine (findLinks_pairwise_core line).imp_of_mem (fun {a b} ha hb hab => ?_)
  by_contra hlt
  refine hab.1 ?_
  rw [spansOverlap, Nat.max_eq_right (le_of_lt hab.2), Nat.lt_min]
  have hb' := (mem_findLinks hb).1
  omega

lemma spansOK_intro (lineCh : List Char) : ∀ sps : List LinkSpan,
    sps.Pairwise (fun a b => a.stop ≤ b.start) →
    (∀ sp ∈ sps, sp.start ≤ sp.stop ∧ sp.stop ≤ lineCh.length ∧
      sp.display_text = sliceOf lineCh sp.start sp.stop) →
    ∀ lastE : Nat, (∀ sp ∈ sps, lastE ≤ sp.start) →
    SpansOK lineCh lastE sps := by
  intro sps
  induction sps with
  | nil => intro _ _ lastE _; trivial
  | cons sp rest ih =>
    intro hpw hfacts lastE hlb
    obtain ⟨hf1, hf2, hf3⟩ := hfacts sp (List.mem_cons_self sp rest)
    refine ⟨hlb sp (List.mem_cons_self sp rest), hf1, hf2, hf3, ?_⟩
    exact ih (List.pairwise_cons.mp hpw).2
      (fun u hu => hfacts u (List.mem_cons_of_mem sp hu)) sp.stop
      (fun u hu => (List.pairwise_cons.mp hpw).1 u hu)

lemma findLinks_spansOK (line : String) :
    SpansOK line.data 0 (findLinksInText line) :=
  spansOK_intro line.data (findLinksInText line) (findLinks_chain line)
    (fun _ hsp =>
      ⟨le_of_lt (mem_findLinks hsp).1, (mem_findLinks hsp).2.1,
        (mem_findLinks hsp).2.2⟩)
    0 (fun _ _ => Nat.zero_le _)

lemma data_asString (l : List Char) : (List.asString l).data = l := rfl

lemma sliceCh_glue {lineCh : List Char} {a b c : Nat} (hab : a ≤ b)
    (hbc : b ≤ c) :
    sliceCh lineCh a b ++ sliceCh lineCh b c = sliceCh lineCh a c := by
  rw [sliceCh, sliceCh, sliceCh, show c - a = (b - a) + (c - b) by omega,
    List.take_add, List.drop_drop, show a + (b - a) = b by omega]

lemma sliceCh_empty {lineCh : List Char} {a b : Nat} (h : b ≤ a) :
    sliceCh lineCh a b = [] := by
  rw [sliceCh, show b - a = 0 by omega]
  rfl

lemma textConcat_loop (w : String → ℚ) (fontName : String) (fs : ℚ)
    (lineCh : List Char) (y : ℚ) :
    ∀ (sps : List LinkSpan) (currentX : ℚ) (lastE : Nat),
      lastE ≤ lineCh.length → SpansOK lineCh lastE sps →
      textConcatCh (drawLinksLoop w fontName fs lineCh y currentX lastE sps) =
        sliceCh lineCh lastE lineCh.length := by
  intro sps
  induction sps with
  | nil =>
    intro currentX lastE hle _
    rw [drawLinksLoop]
    split
    · next h => simp [textConcatCh, sliceOf, data_asString]
    · next h => rw [textConcatCh, sliceCh_empty (by omega)]; rfl
  | cons sp rest ih =>
    intro currentX lastE hle hok
    obtain ⟨h0, h1, h2, h3, hrest⟩ := hok
    rw [drawLinksLoop]
    simp only [textConcatCh, List.flatMap_append] at ih ⊢
    rw [ih _ sp.stop h2 hrest]
    have hgap : (if lastE < sp.start then
        [DrawPrim.setFont fontName fs,
         DrawPrim.text (sliceOf lineCh lastE sp.start) currentX y]
      else []).flatMap (fun p =>
        match p with
        | .text str _ _ => str.data
        | _ => []) = sliceCh lineCh lastE sp.start := by
      split
      · simp [sliceOf, data_asString]
      · next hn => rw [sliceCh_empty (by omega)]; rfl
    rw [hgap, h3]
    simp only [List.flatMap_cons, List.flatMap_nil, List.append_nil,
      List.nil_append, List.append_assoc]
    rw [show (sliceOf lineCh sp.start sp.stop).data =
      sliceCh lineCh sp.start sp.stop from rfl]
    rw [sliceCh_glue h1 h2, sliceCh_glue h0 (le_trans h1 h2)]

/-- Claim C10: for every line, the concatenation of all text runs the
renderer draws (gap before the first span, each span's display text, gaps
between spans, trailing text) is exactly the original line: no character is
dropped or drawn twice. -/
theorem drawn_text_reassembles_line (w : String → ℚ) (fontName : String)
    (fs : ℚ) (line : String) (x y : ℚ) :
    textConcatCh (drawLineWithLinks w fontName fs line x y).1 = line.data := by
  rw [drawLineWithLinks]
  split
  · simp [textConcatCh]
  · rw [textConcat_loop w fontName fs line.data y (findLinksInText line) x 0
      (Nat.zero_le _) (findLinks_spansOK line)]
    rw [sliceCh, Nat.sub_zero, List.drop_zero, List.take_length]

/-- Claim C9: if the configured font is not already registered and cannot be
resolved to an installed font file (unknown family, or no font file found),
the whole render fails with an error before any drawing — the result carries
no layout events — and no substitute font is tried: the outcome depends on
the file lookup only at the requested family name. -/
theorem font_failure_fatal (registered families : List String)
    (findFile : String → Option String) (wrap : String → List String)
    (fontName : String) (fs : ℚ) (text : String)
    (hreg : fontName ∉ registered)
    (hres : fontName ∉ families ∨ findFile fontName = none) :
    (∃ msg, saveCoverLetterPdf registered families findFile wrap fontName fs
        text = .error msg) ∧
    (∀ g : String → Option String, g fontName = findFile fontName →
      saveCoverLetterPdf registered families g wrap fontName fs text =
        saveCoverLetterPdf registered families findFile wrap fontName fs
          text) := by
  constructor
  · simp only [saveCoverLetterPdf, registerFont, resolveFontPath, if_neg hreg]
    rcases hres with hf | hf
    · rw [if_neg hf]
      exact ⟨_, rfl⟩
    · by_cases hmem : fontName ∈ families
      · rw [if_pos hmem, hf]
        exact ⟨_, rfl⟩
      · rw [if_neg hmem]
        exact ⟨_, rfl⟩
  · intro g hg
    simp only [saveCoverLetterPdf, registerFont, resolveFontPath, hg]

/-- Witness for C9: an unknown family with an empty registry, no installed
families and a file lookup that finds nothing fails fatally. -/
theorem font_failure_fatal_witness :
    ("Nonexistent" ∉ ([] : List String)) ∧
    (∃ msg, saveCoverLetterPdf [] [] (fun _ => none) (fun p => [p])
        "Nonexistent" 12 "hello" = .error msg) :=
  ⟨by decide,
    (font_failure_fatal [] [] (fun _ => none) (fun p => [p]) "Nonexistent"
      12 "hello" (by decide) (Or.inr rfl)).1⟩
